import Mathlib

/-!
Verification of the `Convolve` sheet transfer function of
`imagen/transferfn/sheetTF.py`.

Embedding conventions
- A 2-D float array of shape (R, C) whose entries are finite is a function
  `Fin R → Fin C → ℚ` (exact arithmetic standing for IEEE doubles).
- A float array that may hold non-finite entries (Inf/NaN) is a function
  `Fin R → Fin C → Option ℚ`; `none` marks a non-finite entry.
- `np.fft.ifft2(np.fft.fft2 x * np.fft.fft2 k).real` (source lines 63-65) is,
  in exact arithmetic and by the convolution theorem for the discrete Fourier
  transform, exactly the 2-D circular convolution of `x` and `k`; the spec
  (section 4.2, step 2) states the same.  It is embedded as `circConv`.
- Python object state is passed explicitly.  The numpy arrays reachable from
  field references live in a heap `ℕ → Fin R → Fin C → Option ℚ` indexed by
  object identity, so in-place mutation and aliasing are observable; the
  kernel-pattern objects live in a heap `ℕ → PatternSpec R C`.
-/

/-- Cyclic index shift, the exact semantics of one axis of `np.roll`:
`np.roll(a, s)[i] = a[(i - s) mod n]`. -/
def idxShift (n : ℕ) [NeZero n] (s : ℤ) (i : Fin n) : Fin n :=
  ⟨((((i : ℕ) : ℤ) - s) % (n : ℤ)).toNat, by
    have hn : 0 < (n : ℤ) := by exact_mod_cast Nat.pos_of_ne_zero (NeZero.ne n)
    have h1 : 0 ≤ (((i : ℕ) : ℤ) - s) % (n : ℤ) := Int.emod_nonneg _ (ne_of_gt hn)
    have h2 : (((i : ℕ) : ℤ) - s) % (n : ℤ) < (n : ℤ) := Int.emod_lt_of_pos _ hn
    omega⟩

/-- A 2-D array of finite float values, shape (R, C). -/
abbrev Mat (R C : ℕ) : Type := Fin R → Fin C → ℚ

/-- A 2-D float array possibly holding non-finite (Inf/NaN) entries. -/
abbrev OMat (R C : ℕ) : Type := Fin R → Fin C → Option ℚ

/-- Sum of all elements of a 2-D array: `a.sum()` (source line 69). -/
def matSum {R C : ℕ} (m : Mat R C) : ℚ := ∑ r, ∑ c, m r c

/-- Exact-arithmetic value of `np.fft.ifft2(np.fft.fft2 x * np.fft.fft2 k).real`
(source lines 63-65): the 2-D circular convolution of `x` with `k`. -/
def circConv {R C : ℕ} [NeZero R] [NeZero C] (x k : Mat R C) : Mat R C :=
  fun r c => ∑ i, ∑ j, x i j * k (r - i) (c - j)

/-- One application of `np.roll(a, s, axis=-1)` (columns). -/
def npRollCols {R C : ℕ} [NeZero C] (s : ℤ) (a : Mat R C) : Mat R C :=
  fun r c => a r (idxShift C s c)

/-- One application of `np.roll(a, s, axis=-2)` (rows). -/
def npRollRows {R C : ℕ} [NeZero R] (s : ℤ) (a : Mat R C) : Mat R C :=
  fun r c => a (idxShift R s r) c

/-- Float division of a finite numerator by a finite denominator: IEEE division
by zero yields a non-finite value (Inf or NaN), marked `none`; otherwise the
exact quotient. -/
def pyDiv (num den : ℚ) : Option ℚ :=
  if den = 0 then none else some (num / den)

/-- The numeric core of `Convolve.__call__` (source lines 63-69): the circular
convolution (FFT multiply, inverse FFT, real part), rolled by `-(k_cols//2)`
along axis -1 then by `-(k_rows//2)` along axis -2 where
`k_rows, k_cols = self.kernel.shape`, then divided elementwise by
`float(self.kernel.sum())`. -/
def applyCore {R C : ℕ} [NeZero R] [NeZero C] (k x : Mat R C) : OMat R C :=
  fun r c =>
    pyDiv (npRollRows (-((R / 2 : ℕ) : ℤ))
            (npRollCols (-((C / 2 : ℕ) : ℤ)) (circConv x k)) r c)
      (matSum k)

/-- Cyclic shift along both axes at once, following the wording of the spec
(section 4.2, step 4): the shift is applied along the two axes independently,
in either order. -/
def specShift2 {R C : ℕ} [NeZero R] [NeZero C] (sr sc : ℤ) (a : Mat R C) : Mat R C :=
  fun r c => a (idxShift R sr r) (idxShift C sc c)

/-- The result Apply must compute following the words of the spec and of
claim C1: the real part of the inverse 2-D FFT of the product of the 2-D FFTs
of the field and the kernel (i.e. their circular convolution), cyclically
shifted by `-(numColumns // 2)` along the column axis and `-(numRows // 2)`
along the row axis, divided elementwise by the total kernel mass. -/
def spec_apply {R C : ℕ} [NeZero R] [NeZero C] (k x : Mat R C) : Mat R C :=
  fun r c =>
    specShift2 (-((R / 2 : ℕ) : ℤ)) (-((C / 2 : ℕ) : ℤ)) (circConv x k) r c / matSum k

/-- The center index `n // 2` used by the recentering shift. -/
def midIdx (n : ℕ) [NeZero n] : Fin n :=
  ⟨n / 2, Nat.div_lt_self (Nat.pos_of_ne_zero (NeZero.ne n)) (by omega)⟩

/-- A kernel array that is a single unit impulse at the center cell
`(numRows // 2, numCols // 2)`. -/
def centerImpulse (R C : ℕ) [NeZero R] [NeZero C] : Mat R C :=
  fun r c => if r = midIdx R ∧ c = midIdx C then 1 else 0

/- Index-shift lemmas. -/

theorem idxShift_inv (n : ℕ) [NeZero n] (s : ℤ) (i : Fin n) :
    idxShift n (-s) (idxShift n s i) = i := by
  have hn : 0 < (n : ℤ) := by exact_mod_cast Nat.pos_of_ne_zero (NeZero.ne n)
  apply Fin.ext
  simp only [idxShift]
  rw [Int.toNat_of_nonneg (Int.emod_nonneg _ (ne_of_gt hn))]
  rw [sub_neg_eq_add, Int.emod_add_emod, sub_add_cancel]
  rw [Int.emod_eq_of_lt (by exact_mod_cast Nat.zero_le _) (by exact_mod_cast i.isLt)]
  exact Int.toNat_natCast _

/-- `idxShift n s` as an equivalence of index sets. -/
def idxShiftEquiv (n : ℕ) [NeZero n] (s : ℤ) : Fin n ≃ Fin n where
  toFun := idxShift n s
  invFun := idxShift n (-s)
  left_inv := fun i => idxShift_inv n s i
  right_inv := fun i => by
    have h := idxShift_inv n (-s) i
    rwa [neg_neg] at h

theorem sum_idxShift (n : ℕ) [NeZero n] (s : ℤ) (f : Fin n → ℚ) :
    ∑ i, f (idxShift n s i) = ∑ i, f i :=
  Equiv.sum_comp (idxShiftEquiv n s) f

theorem idxShift_neg_half (n : ℕ) [NeZero n] (i : Fin n) :
    idxShift n (-((n / 2 : ℕ) : ℤ)) i = i + midIdx n := by
  apply Fin.ext
  simp only [idxShift]
  have h : ((i : ℕ) : ℤ) - -((n / 2 : ℕ) : ℤ) = (((i : ℕ) + n / 2 : ℕ) : ℤ) := by
    push_cast; ring
  rw [h, ← Int.natCast_mod, Int.toNat_natCast, Fin.val_add]
  rfl

/- The circular convolution with the centered unit impulse. -/

theorem matSum_centerImpulse (R C : ℕ) [NeZero R] [NeZero C] :
    matSum (centerImpulse R C) = 1 := by
  unfold matSum centerImpulse
  have h : ∀ r : Fin R, (∑ c : Fin C, if r = midIdx R ∧ c = midIdx C then (1 : ℚ) else 0)
      = if r = midIdx R then 1 else 0 := by
    intro r
    by_cases hr : r = midIdx R
    · subst hr
      simp
    · simp [hr]
  rw [Finset.sum_congr rfl fun r _ => h r]
  simp

theorem circConv_centerImpulse {R C : ℕ} [NeZero R] [NeZero C] (x : Mat R C)
    (r : Fin R) (c : Fin C) :
    circConv x (centerImpulse R C) r c = x (r - midIdx R) (c - midIdx C) := by
  unfold circConv centerImpulse
  have key : ∀ (i : Fin R) (j : Fin C),
      (r - i = midIdx R ∧ c - j = midIdx C) ↔ (i = r - midIdx R ∧ j = c - midIdx C) := by
    intro i j
    constructor
    · rintro ⟨h1, h2⟩
      exact ⟨by rw [← h1, sub_sub_cancel], by rw [← h2, sub_sub_cancel]⟩
    · rintro ⟨h1, h2⟩
      subst h1; subst h2
      exact ⟨sub_sub_cancel r (midIdx R), sub_sub_cancel c (midIdx C)⟩
  simp only [mul_ite, mul_one, mul_zero, key]
  have h : ∀ i : Fin R,
      (∑ j : Fin C, if i = r - midIdx R ∧ j = c - midIdx C then x i j else 0)
      = if i = r - midIdx R then x i (c - midIdx C) else 0 := by
    intro i
    by_cases hi : i = r - midIdx R
    · subst hi
      simp
    · simp [hi]
  rw [Finset.sum_congr rfl fun i _ => h i]
  simp

/- Sums of rolled arrays and of circular convolutions. -/

theorem sum_npRollCols {R C : ℕ} [NeZero C] (s : ℤ) (a : Mat R C) :
    ∑ r, ∑ c, npRollCols s a r c = ∑ r, ∑ c, a r c := by
  refine Finset.sum_congr rfl fun r _ => ?_
  exact sum_idxShift C s (a r)

theorem sum_npRollRows {R C : ℕ} [NeZero R] (s : ℤ) (a : Mat R C) :
    ∑ r, ∑ c, npRollRows s a r c = ∑ r, ∑ c, a r c := by
  rw [Finset.sum_comm]
  rw [show (∑ c : Fin C, ∑ r : Fin R, npRollRows s a r c)
      = ∑ c : Fin C, ∑ r : Fin R, a r c from
    Finset.sum_congr rfl fun c _ => sum_idxShift R s (fun r => a r c)]
  exact Finset.sum_comm

theorem sum_sub_reindex {R C : ℕ} [NeZero R] [NeZero C] (k : Mat R C)
    (i : Fin R) (j : Fin C) :
    ∑ r, ∑ c, k (r - i) (c - j) = matSum k := by
  unfold matSum
  have inner : ∀ r : Fin R, ∑ c : Fin C, k (r - i) (c - j) = ∑ c, k (r - i) c := by
    intro r
    exact Equiv.sum_comp (Equiv.subRight j) (k (r - i))
  rw [Finset.sum_congr rfl fun r _ => inner r]
  exact Equiv.sum_comp (Equiv.subRight i) (fun r => ∑ c, k r c)

theorem sum_circConv {R C : ℕ} [NeZero R] [NeZero C] (x k : Mat R C) :
    ∑ r, ∑ c, circConv x k r c = matSum x * matSum k := by
  unfold circConv
  calc ∑ r : Fin R, ∑ c : Fin C, ∑ i : Fin R, ∑ j : Fin C, x i j * k (r - i) (c - j)
      = ∑ r : Fin R, ∑ i : Fin R, ∑ c : Fin C, ∑ j : Fin C, x i j * k (r - i) (c - j) :=
        Finset.sum_congr rfl fun r _ => Finset.sum_comm
    _ = ∑ i : Fin R, ∑ r : Fin R, ∑ c : Fin C, ∑ j : Fin C, x i j * k (r - i) (c - j) :=
        Finset.sum_comm
    _ = ∑ i : Fin R, ∑ r : Fin R, ∑ j : Fin C, ∑ c : Fin C, x i j * k (r - i) (c - j) :=
        Finset.sum_congr rfl fun i _ => Finset.sum_congr rfl fun r _ => Finset.sum_comm
    _ = ∑ i : Fin R, ∑ j : Fin C, ∑ r : Fin R, ∑ c : Fin C, x i j * k (r - i) (c - j) :=
        Finset.sum_congr rfl fun i _ => Finset.sum_comm
    _ = ∑ i : Fin R, ∑ j : Fin C, x i j * ∑ r : Fin R, ∑ c : Fin C, k (r - i) (c - j) := by
        refine Finset.sum_congr rfl fun i _ => Finset.sum_congr rfl fun j _ => ?_
        simp [Finset.mul_sum]
    _ = ∑ i : Fin R, ∑ j : Fin C, x i j * matSum k := by
        refine Finset.sum_congr rfl fun i _ => Finset.sum_congr rfl fun j _ => ?_
        rw [sum_sub_reindex]
    _ = matSum x * matSum k := by
        unfold matSum
        rw [Finset.sum_mul]
        exact Finset.sum_congr rfl fun i _ => (Finset.sum_mul _ _ _).symm

/- The operator, its state and the surrounding Python object model. -/

/-- Modelled from the spec: a continuous bounding rectangle of a
sheet-coordinate system or of a kernel pattern. -/
abbrev Bounds : Type := ℚ × ℚ × ℚ × ℚ

/-- Modelled from the spec: the `SheetCoordinateSystem` collaborator, exposing
a bounding rectangle and the x/y sampling densities, read-only to the
operator. -/
structure SCS where
  bounds : Bounds
  xdensity : ℚ
  ydensity : ℚ

/-- Modelled from the spec: a kernel-pattern generator (`Gaussian`, `Constant`,
`Composite`, ... are outside `src/`): it carries its declared bounds and
raster densities and supports rasterization into an array for given target
bounds and densities. -/
structure PatternSpec (R C : ℕ) where
  bounds : Bounds
  xdensity : ℚ
  ydensity : ℚ
  render : Bounds → ℚ → ℚ → Mat R C

/-- Modelled from the spec: `set_matrix_dimensions(bounds, xdensity, ydensity)`
re-targets a pattern's raster resolution to the given bounds and densities,
mutating the pattern it is called on. -/
def setMatrixDimensions {R C : ℕ} (p : PatternSpec R C) (b : Bounds) (xd yd : ℚ) :
    PatternSpec R C :=
  { p with bounds := b, xdensity := xd, ydensity := yd }

/-- Modelled from the spec: rendering
`Composite(generators=[Constant(scale=0, bounds=scs.bounds), p], bounds=scs.bounds, ...)()`
(source lines 53-57) — the zero-scaled constant background contributes nothing,
so the result is the pattern rasterized over the full coordinate-system bounds
at its densities, zero away from the pattern.  The render returns a fresh
array that shares no storage with the pattern object. -/
def compositeRender {R C : ℕ} (scs : SCS) (p : PatternSpec R C) : Mat R C :=
  p.render scs.bounds scs.xdensity scs.ydensity

/-- State of a `Convolve` instance: whether the attribute `kernel` exists on
the instance, its value (`none` embeds Python `None`), and the reference
(object identity) of the `kernel_pattern` parameter value. -/
structure Convolve (R C : ℕ) where
  hasKernelAttr : Bool
  kernel : Option (Mat R C)
  kernel_pattern : ℕ

/-- Heap of kernel-pattern objects, indexed by object identity. -/
abbrev PHeap (R C : ℕ) : Type := ℕ → PatternSpec R C

/-- Heap of the numpy float arrays held by field references, indexed by object
identity. -/
abbrev FHeap (R C : ℕ) : Type := ℕ → OMat R C

/-- `Convolve.__init__` (source lines 38-40): sets `self.kernel = None` —
so the attribute `kernel` exists from construction on — and stores the
`kernel_pattern` parameter (here: a reference into the pattern heap). -/
def Convolve.construct {R C : ℕ} (kp : ℕ) : Convolve R C :=
  { hasKernelAttr := true, kernel := none, kernel_pattern := kp }

/-- Kernel Preparation, embedding the `initialize` method of `Convolve`
(source lines 43-57): read the caller's pattern object, `copy.deepcopy` it
(a complete value copy), call `set_matrix_dimensions` on the copy with the
original's own bounds and the coordinate system's densities, rasterize the
zero-padded composite, and store the result as `self.kernel`.  The pattern
heap is returned so that any mutation of the caller's object would be
observable: only the deep copy is re-targeted, so the heap is unchanged. -/
def Convolve.prepare {R C : ℕ} (op : Convolve R C) (ph : PHeap R C) (scs : SCS) :
    Convolve R C × PHeap R C :=
  let pat := ph op.kernel_pattern
  let pattern_copy := pat
  let pattern_copy := setMatrixDimensions pattern_copy pat.bounds scs.xdensity scs.ydensity
  ({ op with kernel := some (compositeRender scs pattern_copy) }, ph)

/-- Errors `Convolve.__call__` can raise: the explicit "has not been properly
initialized with 'SCS'" `Exception` of source lines 60-62, and the exception
`np.fft.fft2(None)` raises (an `IndexError`: `np.asarray(None)` is 0-d, and
`fft2` then indexes its shape at axis -2). -/
inductive PyErr where
  | notInitErr : PyErr
  | fftIndexErr : PyErr
deriving DecidableEq

/-- The finite values of a float array (meaningful when all entries are
finite). -/
def finitePart {R C : ℕ} (m : OMat R C) : Mat R C :=
  fun r c => (m r c).getD 0

/-- `Convolve.__call__` (source lines 59-71) on the field referenced by `xid`:
if the attribute `kernel` is missing, raise the "not properly initialized"
exception; if `self.kernel` is `None`, `np.fft.fft2(self.kernel)` raises;
otherwise compute `applyCore` on the field's contents and overwrite the
referenced array in place (`x.fill(0.0); x += convolved`) — the heap is
updated at `xid` and nowhere else, and no new array object is created. -/
def Convolve.call {R C : ℕ} [NeZero R] [NeZero C] (op : Convolve R C)
    (hp : FHeap R C) (xid : ℕ) : Except PyErr (Convolve R C × FHeap R C) :=
  if op.hasKernelAttr = false then
    Except.error PyErr.notInitErr
  else
    match op.kernel with
    | none => Except.error PyErr.fftIndexErr
    | some k =>
        Except.ok (op, fun i => if i = xid then applyCore k (finitePart (hp xid)) else hp i)

/- Helper lemmas about `applyCore`. -/

theorem applyCore_of_ne_zero {R C : ℕ} [NeZero R] [NeZero C] (k x : Mat R C)
    (h : matSum k ≠ 0) :
    applyCore k x = fun r c => some (spec_apply k x r c) := by
  funext r c
  unfold applyCore pyDiv spec_apply specShift2 npRollRows npRollCols
  rw [if_neg h]

theorem applyCore_of_zero_mass {R C : ℕ} [NeZero R] [NeZero C] (k x : Mat R C)
    (h : matSum k = 0) :
    applyCore k x = fun _ _ => none := by
  funext r c
  unfold applyCore pyDiv
  rw [if_pos h]

/- Claims. -/

/-- C1: for every prepared operator and every 2-D real field, Apply overwrites
the field, through its own reference and no other, with the real part of the
inverse 2-D FFT of the elementwise product of the 2-D FFTs of the field and of
the stored kernel array (their circular convolution), cyclically shifted by
`-(numColumns // 2)` along the column axis and `-(numRows // 2)` along the row
axis (the kernel array's shape), divided elementwise by the sum of all kernel
array elements. -/
theorem call_computes_spec_formula {R C : ℕ} [NeZero R] [NeZero C]
    (op : Convolve R C) (hp : FHeap R C) (xid : ℕ) (k x : Mat R C)
    (hattr : op.hasKernelAttr = true) (hk : op.kernel = some k)
    (hx : hp xid = fun r c => some (x r c)) (hsum : matSum k ≠ 0) :
    Convolve.call op hp xid =
      Except.ok (op, fun i => if i = xid then (fun r c => some (spec_apply k x r c)) else hp i) := by
  have hfin : finitePart (hp xid) = x := by
    rw [hx]; rfl
  unfold Convolve.call
  rw [hattr, hk]
  show Except.ok (op, fun i => if i = xid then applyCore k (finitePart (hp xid)) else hp i) = _
  rw [hfin, applyCore_of_ne_zero k x hsum]

def kW1 : Mat 2 2 := fun _ _ => 1

def xW1 : Mat 2 2 := fun r c => ((r : ℕ) : ℚ) + 2 * ((c : ℕ) : ℚ)

def opW1 : Convolve 2 2 :=
  { hasKernelAttr := true, kernel := some kW1, kernel_pattern := 0 }

def hpW1 : FHeap 2 2 := fun _ => fun r c => some (xW1 r c)

/-- Witness for C1 at a concrete prepared operator and field. -/
theorem call_computes_spec_formula_witness :
    Convolve.call opW1 hpW1 0 =
      Except.ok (opW1, fun i => if i = 0 then (fun r c => some (spec_apply kW1 xW1 r c)) else hpW1 i) :=
  call_computes_spec_formula opW1 hpW1 0 kW1 xW1 rfl rfl rfl
    (by norm_num [matSum, kW1, Fin.sum_univ_two])

/-- C3: if the prepared kernel array is a single unit impulse at the center
cell `(numRows // 2, numCols // 2)` (total mass 1), Apply leaves every field's
contents unchanged. -/
theorem centerImpulse_apply_id {R C : ℕ} [NeZero R] [NeZero C] (x : Mat R C) :
    applyCore (centerImpulse R C) x = fun r c => some (x r c) := by
  funext r c
  show pyDiv (npRollRows (-((R / 2 : ℕ) : ℤ))
      (npRollCols (-((C / 2 : ℕ) : ℤ)) (circConv x (centerImpulse R C))) r c)
      (matSum (centerImpulse R C)) = some (x r c)
  unfold npRollRows npRollCols
  rw [idxShift_neg_half, idxShift_neg_half, circConv_centerImpulse,
    add_sub_cancel_right, add_sub_cancel_right, matSum_centerImpulse]
  unfold pyDiv
  norm_num

def xW3 : Mat 3 3 := fun r c => ((r : ℕ) : ℚ) + 3 * ((c : ℕ) : ℚ)

/-- Witness for C3 at a concrete 3×3 field. -/
theorem centerImpulse_apply_id_witness :
    applyCore (centerImpulse 3 3) xW3 = fun r c => some (xW3 r c) :=
  centerImpulse_apply_id xW3

/-- C9: the two cyclic axis shifts of the recentering step commute: rolling the
columns then the rows equals rolling the rows then the columns, for every
2-D array and all shift amounts. -/
theorem roll_axes_commute {R C : ℕ} [NeZero R] [NeZero C] (sr sc : ℤ) (a : Mat R C) :
    npRollRows sr (npRollCols sc a) = npRollCols sc (npRollRows sr a) := rfl

def aW9 : Mat 2 3 := fun r c => ((r : ℕ) : ℚ) * 5 + ((c : ℕ) : ℚ)

/-- Witness for C9 at a concrete 2×3 array and concrete shifts. -/
theorem roll_axes_commute_witness :
    npRollRows 1 (npRollCols (-3) aW9) = npRollCols (-3) (npRollRows 1 aW9) :=
  roll_axes_commute 1 (-3) aW9

def hpC2 : FHeap 2 2 := fun _ => fun r c => some (((r : ℕ) : ℚ) + ((c : ℕ) : ℚ))

/-- C2 (code bug): on a freshly constructed operator, `__call__` does NOT
raise the "not initialized" exception of lines 60-62 — `__init__` sets
`self.kernel = None`, so `hasattr(self, 'kernel')` is always true and the
guard is dead; instead `np.fft.fft2(None)` raises an unrelated `IndexError`,
before the field is touched (in this embedding: an error is returned and no
heap update happens). -/
theorem uninit_call_raises_wrong_error :
    Convolve.call (Convolve.construct 7 : Convolve 2 2) hpC2 0 =
      Except.error PyErr.fftIndexErr ∧
    PyErr.fftIndexErr ≠ PyErr.notInitErr :=
  ⟨rfl, by decide⟩

/-- C4: for every kernel array of total mass 1 and every field, the sum of all
field elements after Apply equals the sum of all field elements before
(exact arithmetic). -/
theorem mass_preservation {R C : ℕ} [NeZero R] [NeZero C] (k x : Mat R C)
    (h : matSum k = 1) :
    ∑ r, ∑ c, (applyCore k x r c).getD 0 = ∑ r, ∑ c, x r c := by
  have h0 : matSum k ≠ 0 := by rw [h]; norm_num
  have hval : ∀ (r : Fin R) (c : Fin C), (applyCore k x r c).getD 0 =
      npRollRows (-((R / 2 : ℕ) : ℤ)) (npRollCols (-((C / 2 : ℕ) : ℤ)) (circConv x k)) r c := by
    intro r c
    show (pyDiv (npRollRows (-((R / 2 : ℕ) : ℤ))
      (npRollCols (-((C / 2 : ℕ) : ℤ)) (circConv x k)) r c) (matSum k)).getD 0 = _
    unfold pyDiv
    rw [if_neg h0, h]
    simp
  rw [Finset.sum_congr rfl fun r _ => Finset.sum_congr rfl fun c _ => hval r c]
  rw [sum_npRollRows, sum_npRollCols, sum_circConv, h, mul_one]
  rfl

def kW4 : Mat 2 2 := fun _ _ => (1 : ℚ) / 4

def xW4 : Mat 2 2 := fun r c => ((r : ℕ) : ℚ) * 7 + ((c : ℕ) : ℚ)

/-- Witness for C4 at a concrete mass-1 kernel and field. -/
theorem mass_preservation_witness :
    ∑ r, ∑ c, (applyCore kW4 xW4 r c).getD 0 = ∑ r, ∑ c, xW4 r c :=
  mass_preservation kW4 xW4 (by norm_num [matSum, kW4, Fin.sum_univ_two])

/-- C5: Apply overwrites the array referenced by the field in place: the heap
cell of the field reference — and no other — receives the convolution result,
which has the same shape `(R, C)` (the type `OMat R C`); no new array object
is substituted, so the mutation is visible through every other reference to
the same array. -/
theorem call_in_place_update {R C : ℕ} [NeZero R] [NeZero C]
    (op : Convolve R C) (hp : FHeap R C) (xid : ℕ) (k x : Mat R C)
    (hattr : op.hasKernelAttr = true) (hk : op.kernel = some k)
    (hx : hp xid = fun r c => some (x r c)) :
    Convolve.call op hp xid =
      Except.ok (op, fun i => if i = xid then applyCore k x else hp i) := by
  have hfin : finitePart (hp xid) = x := by
    rw [hx]; rfl
  unfold Convolve.call
  rw [hattr, hk]
  show Except.ok (op, fun i => if i = xid then applyCore k (finitePart (hp xid)) else hp i) = _
  rw [hfin]

def kW5 : Mat 2 2 := fun r c => ((r : ℕ) : ℚ) + ((c : ℕ) : ℚ)

def xW5 : Mat 2 2 := fun r c => ((r : ℕ) : ℚ) - ((c : ℕ) : ℚ)

def opW5 : Convolve 2 2 :=
  { hasKernelAttr := true, kernel := some kW5, kernel_pattern := 3 }

def hpW5 : FHeap 2 2 := fun _ => fun r c => some (xW5 r c)

/-- Witness for C5 at a concrete prepared operator and field. -/
theorem call_in_place_update_witness :
    Convolve.call opW5 hpW5 0 =
      Except.ok (opW5, fun i => if i = 0 then applyCore kW5 xW5 else hpW5 i) :=
  call_in_place_update opW5 hpW5 0 kW5 xW5 rfl rfl rfl

/-- C6: Kernel Preparation operates on a deep copy of the caller's kernel
specification: it returns the pattern heap unchanged (the caller's original is
never altered), and the stored kernel array is a pure value of the
specification as it was at preparation time, so mutating the caller's original
object afterwards cannot change it. -/
theorem prepare_deepcopy_frame {R C : ℕ} (op : Convolve R C) (ph : PHeap R C)
    (scs : SCS) :
    (Convolve.prepare op ph scs).2 = ph ∧
    (Convolve.prepare op ph scs).1.kernel =
      some (compositeRender scs (setMatrixDimensions (ph op.kernel_pattern)
        (ph op.kernel_pattern).bounds scs.xdensity scs.ydensity)) :=
  ⟨rfl, rfl⟩

/-- C7: when the prepared kernel array sums to exactly zero, Apply completes
without raising any error — in particular no explicit zero-mass-kernel error —
and every entry written back to the field is non-finite (the IEEE division by
zero), marked `none`. -/
theorem zero_mass_call_no_error {R C : ℕ} [NeZero R] [NeZero C]
    (op : Convolve R C) (hp : FHeap R C) (xid : ℕ) (k : Mat R C)
    (hattr : op.hasKernelAttr = true) (hk : op.kernel = some k)
    (hsum : matSum k = 0) :
    Convolve.call op hp xid =
      Except.ok (op, fun i => if i = xid then (fun _ _ => none) else hp i) := by
  unfold Convolve.call
  rw [hattr, hk]
  show Except.ok (op, fun i => if i = xid then applyCore k (finitePart (hp xid)) else hp i) = _
  rw [applyCore_of_zero_mass k (finitePart (hp xid)) hsum]

def kW7 : Mat 2 2 := fun r _ => if r = 0 then (1 : ℚ) else -1

def opW7 : Convolve 2 2 :=
  { hasKernelAttr := true, kernel := some kW7, kernel_pattern := 0 }

/-- Witness for C7 at a concrete kernel of total mass zero. -/
theorem zero_mass_call_no_error_witness :
    Convolve.call opW7 hpW1 0 =
      Except.ok (opW7, fun i => if i = 0 then (fun _ _ => none) else hpW1 i) :=
  zero_mass_call_no_error opW7 hpW1 0 kW7 rfl rfl
    (by norm_num [matSum, kW7, Fin.sum_univ_two])

/-- C8: Apply is deterministic — two invocations on the same prepared operator
whose field references hold equal contents both succeed and write equal
contents. -/
theorem call_deterministic {R C : ℕ} [NeZero R] [NeZero C]
    (op : Convolve R C) (h1 h2 : FHeap R C) (x1 x2 : ℕ) (k : Mat R C)
    (hattr : op.hasKernelAttr = true) (hk : op.kernel = some k)
    (heq : h1 x1 = h2 x2) :
    ∃ g1 g2 : FHeap R C,
      Convolve.call op h1 x1 = Except.ok (op, g1) ∧
      Convolve.call op h2 x2 = Except.ok (op, g2) ∧
      g1 x1 = g2 x2 := by
  refine ⟨fun i => if i = x1 then applyCore k (finitePart (h1 x1)) else h1 i,
    fun i => if i = x2 then applyCore k (finitePart (h2 x2)) else h2 i, ?_, ?_, ?_⟩
  · unfold Convolve.call
    rw [hattr, hk]
    rfl
  · unfold Convolve.call
    rw [hattr, hk]
    rfl
  · rw [heq]
    simp

def hpW8a : FHeap 2 2 := fun _ => fun r c => some (((r : ℕ) : ℚ) * ((c : ℕ) : ℚ))

def hpW8b : FHeap 2 2 := fun i => if i = 5 then (fun r c => some (((r : ℕ) : ℚ) * ((c : ℕ) : ℚ))) else fun _ _ => some 9

/-- Witness for C8: two calls on distinct heaps holding equal field contents. -/
theorem call_deterministic_witness :
    ∃ g1 g2 : FHeap 2 2,
      Convolve.call opW5 hpW8a 2 = Except.ok (opW5, g1) ∧
      Convolve.call opW5 hpW8b 5 = Except.ok (opW5, g2) ∧
      g1 2 = g2 5 :=
  call_deterministic opW5 hpW8a hpW8b 2 5 kW5 rfl rfl rfl

/-- C10: Apply never modifies the operator's stored kernel array: whenever
`__call__` returns, the operator state — in particular `self.kernel` — is
exactly what it was before the call. -/
theorem call_preserves_kernel {R C : ℕ} [NeZero R] [NeZero C]
    (op op' : Convolve R C) (hp hp' : FHeap R C) (xid : ℕ)
    (h : Convolve.call op hp xid = Except.ok (op', hp')) :
    op'.kernel = op.kernel := by
  unfold Convolve.call at h
  by_cases hattr : op.hasKernelAttr = false
  · rw [if_pos hattr] at h
    exact absurd h (by simp)
  · rw [if_neg hattr] at h
    cases hk : op.kernel with
    | none =>
        rw [hk] at h
        exact absurd h (by simp)
    | some k =>
        rw [hk] at h
        simp only [Except.ok.injEq, Prod.mk.injEq] at h
        rw [← h.1]
        exact hk

def hpW10 : FHeap 2 2 := fun _ => fun _ _ => some 1

def gW10 : FHeap 2 2 := fun i => if i = 0 then applyCore kW5 (finitePart (hpW10 0)) else hpW10 i

/-- Witness for C10 at a concrete successful call. -/
theorem call_preserves_kernel_witness :
    Convolve.call opW5 hpW10 0 = Except.ok (opW5, gW10) ∧ opW5.kernel = opW5.kernel :=
  ⟨rfl, call_preserves_kernel opW5 opW5 hpW10 gW10 0 rfl⟩
